import Mathlib

/-
  Verification development for the C-Cache repository (src/cache.h).

  The source defines, in namespace wcon::util:
    * an abstract `CacheAlgorithm<Key>` with Insert / Remove / Replace / Increment;
    * `LFUCache<Key>` implementing it with
        - `m_key_frequence : std::multimap<std::size_t, Key>` (frequency -> key,
          ordered by frequency, equal-frequency entries in insertion order since
          multimap emplace inserts at the upper bound of the equal range),
        - `m_key_element : std::unordered_map<Key, iterator>` mapping each key to
          its current multimap entry,
        - `m_decay_counter`, `m_decay_border`;
    * `Cache<Key, Value, Caching>` holding `m_max_size`, a `Caching` instance and
      `m_data : std::unordered_map<Key, Value>` behind one mutex.

  The shallow embedding below models the two unordered_maps as association lists
  (first binding wins, insertion at the back for fresh keys) and the multimap as a
  list of (frequency, key) pairs kept sorted by frequency, with emplace inserting
  at the upper bound of the equal range exactly as std::multimap::emplace does.
  The stored multimap iterators of `m_key_element` are modelled by storing, per
  key, the frequency value of the entry the iterator points to: under the
  invariant that keys are unique in the multimap this determines the entry.
  Exceptions are modelled by `Except` / explicit error components; each error
  constructor records the throw site in the C++ code.  Operations whose C++
  counterpart mutates the object before throwing (Read, Items) return the mutated
  state next to the error, matching the persistence of partial mutations when an
  exception propagates out of a method.
-/

namespace CCache

/-- Throw sites of the C++ code: `policyKeyNotTracked` is the
`std::out_of_range` thrown by `m_key_element.at(key)` in `LFUCache::Remove` and
`LFUCache::Increment`; `emptyPolicy` is the `std::out_of_range("No Key
registered")` thrown by `LFUCache::Replace`; `emptyCache` is the
`std::runtime_error("empty cache")` thrown by `Cache::Items`; `dataKeyNotFound`
is the `std::out_of_range` thrown by `m_data.at(k)` in `Cache::Read`. -/
inductive CacheError where
  | policyKeyNotTracked : CacheError
  | emptyPolicy : CacheError
  | emptyCache : CacheError
  | dataKeyNotFound : CacheError
deriving DecidableEq, Repr

/-- Lookup in the association-list model of `std::unordered_map`
(`find` / `at`): the first binding of the key, if any. -/
def findAssoc {K V : Type} [DecidableEq K] (k : K) : List (K × V) → Option V
  | [] => none
  | e :: rest => if k = e.1 then some e.2 else findAssoc k rest

/-- `m[k] = v` on the association-list model of `std::unordered_map`:
replace the binding of `k` in place if present, append a fresh binding
otherwise. -/
def setAssoc {K V : Type} [DecidableEq K] (k : K) (v : V) : List (K × V) → List (K × V)
  | [] => [(k, v)]
  | e :: rest => if k = e.1 then (k, v) :: rest else e :: setAssoc k v rest

/-- `m.erase(k)` on the association-list model of `std::unordered_map`:
drop the binding of `k` if present. -/
def eraseAssoc {K V : Type} [DecidableEq K] (k : K) : List (K × V) → List (K × V)
  | [] => []
  | e :: rest => if k = e.1 then rest else e :: eraseAssoc k rest

/-- `std::multimap<std::size_t, Key>::emplace`: insert the pair at the upper
bound of the equal range of its frequency, i.e. before the first entry whose
frequency is strictly larger. -/
def emplaceMM {K : Type} (f : Nat) (k : K) : List (Nat × K) → List (Nat × K)
  | [] => [(f, k)]
  | e :: rest => if f < e.1 then (f, k) :: e :: rest else e :: emplaceMM f k rest

/-- `std::multimap::erase(iterator)`: remove the entry the stored iterator
points to. Under the invariant that keys occur at most once in the multimap
the iterator is determined by its (frequency, key) pair, so erasing the first
matching pair is erasing the iterator's entry. -/
def eraseMM {K : Type} [DecidableEq K] (x : Nat × K) : List (Nat × K) → List (Nat × K)
  | [] => []
  | e :: rest => if e = x then rest else e :: eraseMM x rest

/-- State of `wcon::util::LFUCache<Key>` (src/cache.h lines 28-85).
`key_frequence` is the frequency-ordered multimap, `key_element` records per key
the frequency of the multimap entry its stored iterator points to. -/
structure LFUCache (K : Type) where
  key_frequence : List (Nat × K)
  key_element : List (K × Nat)
  decay_counter : Nat
  decay_border : Nat
deriving DecidableEq, Repr

/-- One iteration of the loop body of `LFUCache::decay` for key `k`: erase the
key's multimap entry and re-emplace it at the halved frequency, updating the
stored iterator. (The `none` branch is unreachable when iterating the keys of
`key_element`.) -/
def LFUCache.decayStep {K : Type} [DecidableEq K] (s : LFUCache K) (k : K) : LFUCache K :=
  match findAssoc k s.key_element with
  | none => s
  | some f =>
    { s with key_frequence := emplaceMM (f / 2) k (eraseMM (f, k) s.key_frequence),
             key_element := setAssoc k (f / 2) s.key_element }

/-- `LFUCache::decay` (src/cache.h lines 72-80): for every element of
`m_key_element`, halve its frequency (integer division) in the multimap, then
reset `m_decay_counter` to 0. -/
def LFUCache.decay {K : Type} [DecidableEq K] (s : LFUCache K) : LFUCache K :=
  let s' := (s.key_element.map Prod.fst).foldl LFUCache.decayStep s
  { s' with decay_counter := 0 }

/-- `LFUCache::Increment` (src/cache.h lines 60-70): `m_key_element.at(key)`
(throws when untracked), reinsert at frequency + 1, update the iterator map,
pre-increment the decay counter and run `decay()` when it reaches
`m_decay_border`. -/
def LFUCache.Increment {K : Type} [DecidableEq K] (s : LFUCache K) (k : K) :
    Except CacheError (LFUCache K) :=
  match findAssoc k s.key_element with
  | none => Except.error CacheError.policyKeyNotTracked
  | some f =>
    let s1 : LFUCache K :=
      { s with key_frequence := emplaceMM (f + 1) k (eraseMM (f, k) s.key_frequence),
               key_element := setAssoc k (f + 1) s.key_element,
               decay_counter := s.decay_counter + 1 }
    Except.ok (if s1.decay_border ≤ s1.decay_counter then s1.decay else s1)

/-- `LFUCache::Insert` (src/cache.h lines 37-44): when the key is untracked,
emplace it in the multimap at frequency 1 and record the iterator; then
unconditionally `Increment(key)`. -/
def LFUCache.Insert {K : Type} [DecidableEq K] (s : LFUCache K) (k : K) :
    Except CacheError (LFUCache K) :=
  let s1 : LFUCache K :=
    match findAssoc k s.key_element with
    | none => { s with key_frequence := emplaceMM 1 k s.key_frequence,
                       key_element := setAssoc k 1 s.key_element }
    | some _ => s
  s1.Increment k

/-- `LFUCache::Remove` (src/cache.h lines 46-52): `m_key_element.at(key)`
(throws when untracked), erase the multimap entry and the iterator-map entry,
increment the decay counter (without any decay check). -/
def LFUCache.Remove {K : Type} [DecidableEq K] (s : LFUCache K) (k : K) :
    Except CacheError (LFUCache K) :=
  match findAssoc k s.key_element with
  | none => Except.error CacheError.policyKeyNotTracked
  | some f =>
    Except.ok { s with key_frequence := eraseMM (f, k) s.key_frequence,
                       key_element := eraseAssoc k s.key_element,
                       decay_counter := s.decay_counter + 1 }

/-- `LFUCache::Replace` (src/cache.h lines 53-59): throw on an empty multimap,
otherwise return the key of `m_key_frequence.begin()`, the entry with the
smallest frequency; no state is modified. -/
def LFUCache.Replace {K : Type} (s : LFUCache K) : Except CacheError K :=
  match s.key_frequence with
  | [] => Except.error CacheError.emptyPolicy
  | e :: _ => Except.ok e.2

/-- The `LFUCache(size_t decay_border=100)` constructor: empty structures,
decay counter 0. -/
def mkLFU {K : Type} (border : Nat) : LFUCache K :=
  ⟨[], [], 0, border⟩

/-- State of `wcon::util::Cache<Key, Value, LFUCache<Key>>`
(src/cache.h lines 87-146): maximum size, owned eviction algorithm and backing
store. The mutex only serializes operations and has no sequential content. -/
structure Cache (K V : Type) where
  max_size : Nat
  cache_algo : LFUCache K
  data : List (K × V)
deriving DecidableEq, Repr

/-- `Cache::refresh` (src/cache.h lines 135-140): pick the victim with
`Replace`, `Remove` it from the algorithm, erase it from `m_data`, `Insert` the
new key. Each throwing call throws before mutating anything, so an error leaves
the cache unchanged. -/
def Cache.refresh {K V : Type} [DecidableEq K] (c : Cache K V) (k : K) :
    Except CacheError (Cache K V) :=
  match c.cache_algo.Replace with
  | Except.error e => Except.error e
  | Except.ok victim =>
    match c.cache_algo.Remove victim with
    | Except.error e => Except.error e
    | Except.ok algo1 =>
      match algo1.Insert k with
      | Except.error e => Except.error e
      | Except.ok algo2 =>
        Except.ok { c with cache_algo := algo2, data := eraseAssoc victim c.data }

/-- `Cache::Write` (src/cache.h lines 95-103): when `m_data.size() >=
m_max_size`, `refresh(k)`; otherwise `Insert(k)` into the algorithm; finally
`m_data[k] = v`. -/
def Cache.Write {K V : Type} [DecidableEq K] (c : Cache K V) (k : K) (v : V) :
    Except CacheError (Cache K V) :=
  match (if c.max_size ≤ c.data.length then c.refresh k
         else match c.cache_algo.Insert k with
              | Except.error e => Except.error e
              | Except.ok a => Except.ok { c with cache_algo := a }) with
  | Except.error e => Except.error e
  | Except.ok c1 => Except.ok { c1 with data := setAssoc k v c1.data }

/-- `Cache::Read` (src/cache.h lines 105-109): `m_cache_algo.Increment(k)`
first, then `m_data.at(k)`. When the increment succeeds but the key is absent
from the store, its effects persist while the lookup error propagates; the
mutated state is returned next to the error. -/
def Cache.Read {K V : Type} [DecidableEq K] (c : Cache K V) (k : K) :
    Except CacheError V × Cache K V :=
  match c.cache_algo.Increment k with
  | Except.error e => (Except.error e, c)
  | Except.ok a =>
    let c1 : Cache K V := { c with cache_algo := a }
    match findAssoc k c1.data with
    | none => (Except.error CacheError.dataKeyNotFound, c1)
    | some v => (Except.ok v, c1)

/-- `Cache::Contains` (src/cache.h lines 111-114): pure membership test on
`m_data`. -/
def Cache.Contains {K V : Type} [DecidableEq K] (c : Cache K V) (k : K) : Bool :=
  (findAssoc k c.data).isSome

/-- The loop of `Cache::Items`: `Increment` every listed key in order; when one
increment throws, the increments already performed persist. -/
def incrAllSt {K : Type} [DecidableEq K] : List K → LFUCache K → Option CacheError × LFUCache K
  | [], a => (none, a)
  | k :: rest, a =>
    match a.Increment k with
    | Except.error e => (some e, a)
    | Except.ok a' => incrAllSt rest a'

/-- `Cache::Items` (src/cache.h lines 116-125): throw `"empty cache"` when
`m_data` is empty; otherwise `Increment` every stored key and return a snapshot
copy of `m_data`. -/
def Cache.Items {K V : Type} [DecidableEq K] (c : Cache K V) :
    Except CacheError (List (K × V)) × Cache K V :=
  if c.data.isEmpty then (Except.error CacheError.emptyCache, c)
  else
    match incrAllSt (c.data.map Prod.fst) c.cache_algo with
    | (some e, a) => (Except.error e, { c with cache_algo := a })
    | (none, a) => (Except.ok c.data, { c with cache_algo := a })

/-- `Cache::Delete` (src/cache.h lines 127-132): erase the entry from `m_data`
when present, silently no-op otherwise; the eviction algorithm is untouched. -/
def Cache.Delete {K V : Type} [DecidableEq K] (c : Cache K V) (k : K) : Cache K V :=
  if (findAssoc k c.data).isSome then { c with data := eraseAssoc k c.data } else c

/-- A `Cache` as built by the constructor (src/cache.h line 91) from a freshly
constructed `LFUCache(border)` and `max_size = cap`, specialised to
natural-number keys and values for concrete scenarios. -/
def mkCache (border cap : Nat) : Cache Nat Nat :=
  ⟨cap, mkLFU border, []⟩

/-- One `Write` call in a caller loop: on an exception the cache object keeps
its state (`Write` only throws before mutating anything) and the caller moves
on. -/
def writeStep {K V : Type} [DecidableEq K] (c : Cache K V) (kv : K × V) : Cache K V :=
  match c.Write kv.1 kv.2 with
  | Except.ok c' => c'
  | Except.error _ => c

/-- Mutual consistency of the two LFU index structures: keys are unique in
`key_element`, keys are unique in `key_frequence`, every iterator-map entry
points at a multimap entry carrying the same key and frequency, and every
multimap entry is pointed at by the iterator map with the same frequency. -/
def policyConsistent {K : Type} [DecidableEq K] (s : LFUCache K) : Prop :=
  (s.key_element.map Prod.fst).Nodup ∧
  (s.key_frequence.map Prod.snd).Nodup ∧
  (∀ e ∈ s.key_element, (e.2, e.1) ∈ s.key_frequence) ∧
  (∀ x ∈ s.key_frequence, findAssoc x.2 s.key_element = some x.1)

/-- The multimap is sorted by frequency (the ordering invariant of
`std::multimap`). -/
def policySorted {K : Type} (s : LFUCache K) : Prop :=
  s.key_frequence.Pairwise (fun a b => a.1 ≤ b.1)

/-- The key set tracked by the eviction algorithm coincides with the key set of
the backing store. -/
def cacheSync {K V : Type} [DecidableEq K] (c : Cache K V) : Prop :=
  (∀ k ∈ c.data.map Prod.fst, k ∈ c.cache_algo.key_element.map Prod.fst) ∧
  (∀ k ∈ c.cache_algo.key_element.map Prod.fst, k ∈ c.data.map Prod.fst)

/-- Invariant of reachable cache states: consistent and sorted algorithm
structures, duplicate-free store keys, store and algorithm tracking the same
keys, and the store within capacity. -/
def CacheInv {K V : Type} [DecidableEq K] (c : Cache K V) : Prop :=
  policyConsistent c.cache_algo ∧ policySorted c.cache_algo ∧
  (c.data.map Prod.fst).Nodup ∧ cacheSync c ∧ c.data.length ≤ c.max_size

instance {K : Type} [DecidableEq K] (s : LFUCache K) : Decidable (policyConsistent s) := by
  unfold policyConsistent; exact inferInstance

instance {K : Type} [DecidableEq K] (s : LFUCache K) : Decidable (policySorted s) := by
  unfold policySorted; exact inferInstance

instance {K V : Type} [DecidableEq K] (c : Cache K V) : Decidable (cacheSync c) := by
  unfold cacheSync; exact inferInstance

instance {K V : Type} [DecidableEq K] (c : Cache K V) : Decidable (CacheInv c) := by
  unfold CacheInv; exact inferInstance

/-- Modelled from the spec (claim C4's reading of the decay trigger): the next
mutating operation after the threshold is reached "halves every tracked key's
frequency by integer division before applying its own effect, and resets the
decay counter to 0" — i.e. a full decay pass first, then the increment. This
definition exists only to be compared against `LFUCache.Increment`. -/
def specDecayThenIncrement {K : Type} [DecidableEq K] (s : LFUCache K) (k : K) :
    Except CacheError (LFUCache K) :=
  (s.decay).Increment k

instance {E A : Type} [DecidableEq E] [DecidableEq A] : DecidableEq (Except E A) := fun x y =>
  match x, y with
  | Except.error a, Except.error b =>
    if h : a = b then Decidable.isTrue (by rw [h])
    else Decidable.isFalse (fun hc => h (Except.error.inj hc))
  | Except.error _, Except.ok _ => Decidable.isFalse (fun hc => Except.noConfusion hc)
  | Except.ok _, Except.error _ => Decidable.isFalse (fun hc => Except.noConfusion hc)
  | Except.ok a, Except.ok b =>
    if h : a = b then Decidable.isTrue (by rw [h])
    else Decidable.isFalse (fun hc => h (Except.ok.inj hc))

/-- Extract the successful result of an operation, with a fallback for the
error case; used only to name concrete states of scenario traces. -/
def okOr {A : Type} (r : Except CacheError A) (d : A) : A :=
  match r with
  | Except.ok x => x
  | Except.error _ => d

/-- C4 scenario state after `Insert(0)` on a fresh `LFUCache(3)`:
key 0 at frequency 2, decay counter 1. -/
def c4s1 : LFUCache Nat := okOr ((mkLFU 3 : LFUCache Nat).Insert 0) (mkLFU 3)

/-- C4 scenario state after `Insert(0); Insert(1)` on a fresh `LFUCache(3)`:
keys 0 and 1 at frequency 2, decay counter 2. -/
def c4s2 : LFUCache Nat := okOr (c4s1.Insert 1) c4s1

/-- C4 scenario state after `Insert(0); Insert(1); Remove(1)` on a fresh
`LFUCache(3)`: key 0 at frequency 2, decay counter 3 = decay border, and no
decay has run yet. -/
def c4s3 : LFUCache Nat := okOr (c4s2.Remove 1) c4s2

/-- The state the code produces when `Increment(0)` is the next mutating
operation after `c4s3`. -/
def c4inc : LFUCache Nat := okOr (c4s3.Increment 0) c4s3

/-- The state the spec sentence behind claim C4 predicts for the same
operation (decay pass first, then the increment). -/
def c4specInc : LFUCache Nat := okOr (specDecayThenIncrement c4s3 0) c4s3

/-- Cache state after `Write(0, 1); Delete(0)` on a cache with capacity 2 and
decay border 100: the store is empty but key 0 is still tracked by the
eviction algorithm at frequency 2. -/
def cacheAfterDelete : Cache Nat Nat := (writeStep (mkCache 100 2) (0, 1)).Delete 0

/-- The eviction-algorithm state after incrementing key 0 in
`cacheAfterDelete`: the increment that a failing `Read(0)` leaves behind. -/
def c7a : LFUCache Nat := okOr (cacheAfterDelete.cache_algo.Increment 0) (mkLFU 100)

/-- The policy state after `Insert(0)` on a fresh `LFUCache(100)`. -/
def policyAfterInsert : LFUCache Nat := okOr ((mkLFU 100 : LFUCache Nat).Insert 0) (mkLFU 100)

/-! ### Association-list lemmas -/

theorem findAssoc_eq_none_iff {K V : Type} [DecidableEq K] {k : K} {m : List (K × V)} :
    findAssoc k m = none ↔ k ∉ m.map Prod.fst := by
  induction m with
  | nil => simp [findAssoc]
  | cons e rest ih =>
    by_cases h : k = e.1 <;> simp [findAssoc, h, ih]

theorem findAssoc_mem {K V : Type} [DecidableEq K] {k : K} {f : V} {m : List (K × V)}
    (h : findAssoc k m = some f) : (k, f) ∈ m := by
  induction m with
  | nil => simp [findAssoc] at h
  | cons e rest ih =>
    by_cases hk : k = e.1
    · simp [findAssoc, hk] at h
      subst hk
      simp [← h]
    · simp [findAssoc, hk] at h
      exact List.mem_cons_of_mem _ (ih h)

theorem mem_map_fst_of_findAssoc {K V : Type} [DecidableEq K] {k : K} {f : V}
    {m : List (K × V)} (h : findAssoc k m = some f) : k ∈ m.map Prod.fst :=
  List.mem_map.2 ⟨(k, f), findAssoc_mem h, rfl⟩

theorem findAssoc_setAssoc {K V : Type} [DecidableEq K] (j k : K) (v : V) (m : List (K × V)) :
    findAssoc j (setAssoc k v m) = if j = k then some v else findAssoc j m := by
  induction m with
  | nil => by_cases h : j = k <;> simp [setAssoc, findAssoc, h]
  | cons e rest ih =>
    by_cases hk : k = e.1
    · by_cases hj : j = k
      · simp [setAssoc, findAssoc, hk, hj, hk ▸ hj]
      · have h2 : ¬ j = e.1 := fun h => hj (h.trans hk.symm)
        simp [setAssoc, findAssoc, hk, hj, h2]
    · by_cases hj : j = e.1
      · have h2 : ¬ j = k := fun h => hk (h ▸ hj)
        have h3 : ¬ e.1 = k := fun h => hk h.symm
        simp [setAssoc, findAssoc, hk, hj, h2, h3]
      · simp [setAssoc, findAssoc, hk, hj, ih]

theorem map_fst_setAssoc_of_mem {K V : Type} [DecidableEq K] {k : K} (v : V)
    {m : List (K × V)} (h : k ∈ m.map Prod.fst) :
    (setAssoc k v m).map Prod.fst = m.map Prod.fst := by
  induction m with
  | nil => simp at h
  | cons e rest ih =>
    by_cases hk : k = e.1
    · simp [setAssoc, hk]
    · rw [List.map_cons] at h
      rcases List.mem_cons.1 h with h1 | h1

      · exact absurd h1 hk
      · simp [setAssoc, hk, ih h1]

theorem setAssoc_of_not_mem {K V : Type} [DecidableEq K] {k : K} (v : V)
    {m : List (K × V)} (h : k ∉ m.map Prod.fst) :
    setAssoc k v m = m ++ [(k, v)] := by
  induction m with
  | nil => simp [setAssoc]
  | cons e rest ih =>
    rw [List.map_cons] at h
    simp only [List.mem_cons, not_or] at h
    simp [setAssoc, h.1, ih h.2]

theorem mem_map_fst_setAssoc {K V : Type} [DecidableEq K] {j k : K} {v : V}
    {m : List (K × V)} :
    j ∈ (setAssoc k v m).map Prod.fst ↔ j = k ∨ j ∈ m.map Prod.fst := by
  by_cases h : k ∈ m.map Prod.fst
  · rw [map_fst_setAssoc_of_mem v h]
    constructor
    · exact Or.inr
    · rintro (rfl | hj)
      · exact h
      · exact hj
  · rw [setAssoc_of_not_mem v h]
    simp [or_comm]

theorem nodup_map_fst_setAssoc {K V : Type} [DecidableEq K] {k : K} (v : V)
    {m : List (K × V)} (h : (m.map Prod.fst).Nodup) :
    ((setAssoc k v m).map Prod.fst).Nodup := by
  by_cases hk : k ∈ m.map Prod.fst
  · rwa [map_fst_setAssoc_of_mem v hk]
  · rw [setAssoc_of_not_mem v hk]
    simp only [List.map_append, List.map_cons, List.map_nil]
    refine List.Nodup.append h (List.nodup_singleton _) ?_
    intro a ha hb
    rw [List.mem_singleton] at hb
    exact hk (hb ▸ ha)

theorem length_setAssoc {K V : Type} [DecidableEq K] (k : K) (v : V) (m : List (K × V)) :
    (setAssoc k v m).length = if k ∈ m.map Prod.fst then m.length else m.length + 1 := by
  induction m with
  | nil => simp [setAssoc]
  | cons e rest ih =>
    by_cases hk : k = e.1
    · simp [setAssoc, hk]
    · by_cases hr : k ∈ rest.map Prod.fst <;> simp [setAssoc, hk, hr, ih]

theorem mem_setAssoc_of_nodup {K V : Type} [DecidableEq K] {k : K} {v : V}
    {m : List (K × V)} {e : K × V} (hnd : (m.map Prod.fst).Nodup)
    (h : e ∈ setAssoc k v m) : e = (k, v) ∨ (e ∈ m ∧ e.1 ≠ k) := by
  induction m with
  | nil =>
    rw [setAssoc, List.mem_singleton] at h
    exact Or.inl h
  | cons hd rest ih =>
    rw [List.map_cons, List.nodup_cons] at hnd
    by_cases hk : k = hd.1
    · rw [setAssoc, if_pos hk] at h
      rcases List.mem_cons.1 h with rfl | h1
      · exact Or.inl rfl
      · refine Or.inr ⟨List.mem_cons_of_mem _ h1, fun he => ?_⟩
        exact hnd.1 (by rw [← hk, ← he]; exact List.mem_map.2 ⟨e, h1, rfl⟩)
    · rw [setAssoc, if_neg hk] at h
      rcases List.mem_cons.1 h with rfl | h1
      · exact Or.inr ⟨List.mem_cons_self _ _, fun he => hk he.symm⟩
      · rcases ih hnd.2 h1 with rfl | ⟨hm, hne⟩
        · exact Or.inl rfl
        · exact Or.inr ⟨List.mem_cons_of_mem _ hm, hne⟩

theorem map_fst_eraseAssoc {K V : Type} [DecidableEq K] (k : K) (m : List (K × V)) :
    (eraseAssoc k m).map Prod.fst = (m.map Prod.fst).erase k := by
  induction m with
  | nil => simp [eraseAssoc]
  | cons e rest ih =>
    by_cases hk : k = e.1
    · rw [eraseAssoc, if_pos hk, List.map_cons, hk, List.erase_cons_head]
    · have h' : ¬ (e.1 == k) = true := by
        simp only [beq_iff_eq]
        exact fun h => hk h.symm
      rw [eraseAssoc, if_neg hk, List.map_cons, List.map_cons,
        List.erase_cons_tail h', ih]

theorem findAssoc_eraseAssoc_ne {K V : Type} [DecidableEq K] {j k : K}
    (h : j ≠ k) (m : List (K × V)) :
    findAssoc j (eraseAssoc k m) = findAssoc j m := by
  induction m with
  | nil => simp [eraseAssoc]
  | cons e rest ih =>
    by_cases hk : k = e.1
    · have : ¬ j = e.1 := fun he => h (he.trans hk.symm)
      simp [eraseAssoc, findAssoc, hk, this]
    · by_cases hj : j = e.1 <;> simp [eraseAssoc, findAssoc, hk, hj, ih]

theorem findAssoc_eraseAssoc_self {K V : Type} [DecidableEq K] {k : K}
    {m : List (K × V)} (hnd : (m.map Prod.fst).Nodup) :
    findAssoc k (eraseAssoc k m) = none := by
  rw [findAssoc_eq_none_iff, map_fst_eraseAssoc]
  exact fun h => (List.Nodup.mem_erase_iff hnd).1 h |>.1 rfl

theorem length_eraseAssoc_of_mem {K V : Type} [DecidableEq K] {k : K}
    {m : List (K × V)} (h : k ∈ m.map Prod.fst) :
    (eraseAssoc k m).length + 1 = m.length := by
  have h1 : (eraseAssoc k m).length = ((m.map Prod.fst).erase k).length := by
    rw [← map_fst_eraseAssoc]; simp
  have h2 : (m.map Prod.fst).length = m.length := by simp
  have h3 : 0 < (m.map Prod.fst).length := List.length_pos.2 (List.ne_nil_of_mem h)
  rw [h1, List.length_erase_of_mem h]
  omega

theorem mem_of_mem_eraseAssoc {K V : Type} [DecidableEq K] {k : K}
    {m : List (K × V)} {e : K × V} (h : e ∈ eraseAssoc k m) : e ∈ m := by
  induction m with
  | nil => simp [eraseAssoc] at h
  | cons hd rest ih =>
    by_cases hk : k = hd.1
    · rw [eraseAssoc, if_pos hk] at h
      exact List.mem_cons_of_mem _ h
    · rw [eraseAssoc, if_neg hk] at h
      rcases List.mem_cons.1 h with rfl | h1
      · exact List.mem_cons_self _ _
      · exact List.mem_cons_of_mem _ (ih h1)

theorem ne_of_mem_eraseAssoc {K V : Type} [DecidableEq K] {k : K}
    {m : List (K × V)} {e : K × V} (hnd : (m.map Prod.fst).Nodup)
    (h : e ∈ eraseAssoc k m) : e.1 ≠ k := by
  intro he
  have h1 : e.1 ∈ (eraseAssoc k m).map Prod.fst := List.mem_map.2 ⟨e, h, rfl⟩
  rw [map_fst_eraseAssoc] at h1
  exact ((List.Nodup.mem_erase_iff hnd).1 h1).1 he

theorem mem_eraseAssoc_of_ne {K V : Type} [DecidableEq K] {k : K}
    {m : List (K × V)} {e : K × V} (hm : e ∈ m) (hne : e.1 ≠ k) :
    e ∈ eraseAssoc k m := by
  induction m with
  | nil => simp at hm
  | cons hd rest ih =>
    by_cases hk : k = hd.1
    · rcases List.mem_cons.1 hm with rfl | h
      · exact absurd hk.symm hne
      · rw [eraseAssoc, if_pos hk]
        exact h
    · rcases List.mem_cons.1 hm with rfl | h
      · rw [eraseAssoc, if_neg hk]
        exact List.mem_cons_self _ _
      · rw [eraseAssoc, if_neg hk]
        exact List.mem_cons_of_mem _ (ih h)

/-! ### Multimap lemmas -/

theorem emplaceMM_perm {K : Type} (f : Nat) (k : K) (l : List (Nat × K)) :
    (emplaceMM f k l).Perm ((f, k) :: l) := by
  induction l with
  | nil => simp [emplaceMM]
  | cons e rest ih =>
    by_cases h : f < e.1
    · simp [emplaceMM, h]
    · rw [emplaceMM, if_neg h]
      exact (ih.cons e).trans (List.Perm.swap _ _ _)

theorem mem_emplaceMM {K : Type} {f : Nat} {k : K} {l : List (Nat × K)} {x : Nat × K} :
    x ∈ emplaceMM f k l ↔ x = (f, k) ∨ x ∈ l := by
  rw [(emplaceMM_perm f k l).mem_iff]
  simp

theorem map_snd_emplaceMM_perm {K : Type} (f : Nat) (k : K) (l : List (Nat × K)) :
    ((emplaceMM f k l).map Prod.snd).Perm (k :: l.map Prod.snd) :=
  (emplaceMM_perm f k l).map Prod.snd

theorem emplaceMM_sorted {K : Type} {f : Nat} {k : K} {l : List (Nat × K)}
    (h : l.Pairwise (fun a b => a.1 ≤ b.1)) :
    (emplaceMM f k l).Pairwise (fun a b => a.1 ≤ b.1) := by
  induction l with
  | nil => simp [emplaceMM]
  | cons e rest ih =>
    rcases List.pairwise_cons.1 h with ⟨he, hrest⟩
    by_cases hf : f < e.1
    · rw [emplaceMM, if_pos hf]
      refine List.pairwise_cons.2 ⟨?_, h⟩
      intro x hx
      rcases List.mem_cons.1 hx with rfl | hx
      · exact Nat.le_of_lt hf
      · exact Nat.le_trans (Nat.le_of_lt hf) (he x hx)
    · rw [emplaceMM, if_neg hf]
      refine List.pairwise_cons.2 ⟨?_, ih hrest⟩
      intro x hx
      rcases mem_emplaceMM.1 hx with rfl | hx
      · exact Nat.le_of_not_lt hf
      · exact he x hx

theorem eraseMM_sublist {K : Type} [DecidableEq K] (x : Nat × K) (l : List (Nat × K)) :
    (eraseMM x l).Sublist l := by
  induction l with
  | nil => simp [eraseMM]
  | cons e rest ih =>
    by_cases h : e = x
    · rw [eraseMM, if_pos h]
      exact (List.Sublist.refl rest).cons e
    · rw [eraseMM, if_neg h]
      exact ih.cons₂ e

theorem perm_cons_eraseMM {K : Type} [DecidableEq K] {x : Nat × K} {l : List (Nat × K)}
    (h : x ∈ l) : l.Perm (x :: eraseMM x l) := by
  induction l with
  | nil => simp at h
  | cons e rest ih =>
    by_cases he : e = x
    · rw [eraseMM, if_pos he, he]
    · rw [eraseMM, if_neg he]
      rcases List.mem_cons.1 h with rfl | h1
      · exact absurd rfl he
      · exact ((ih h1).cons e).trans (List.Perm.swap _ _ _)

theorem mem_eraseMM_of_nodup {K : Type} [DecidableEq K] {x y : Nat × K}
    {l : List (Nat × K)} (hnd : l.Nodup) :
    y ∈ eraseMM x l ↔ y ≠ x ∧ y ∈ l := by
  induction l with
  | nil => simp [eraseMM]
  | cons e rest ih =>
    rw [List.nodup_cons] at hnd
    by_cases he : e = x
    · subst he
      rw [eraseMM, if_pos rfl]
      constructor
      · intro hy
        exact ⟨fun hye => hnd.1 (hye ▸ hy), List.mem_cons_of_mem _ hy⟩
      · rintro ⟨hne, hy⟩
        rcases List.mem_cons.1 hy with rfl | hy
        · exact absurd rfl hne
        · exact hy
    · rw [eraseMM, if_neg he]
      constructor
      · intro hy
        rcases List.mem_cons.1 hy with rfl | hy
        · exact ⟨he, List.mem_cons_self _ _⟩
        · rcases (ih hnd.2).1 hy with ⟨hne, hmem⟩
          exact ⟨hne, List.mem_cons_of_mem _ hmem⟩
      · rintro ⟨hne, hy⟩
        rcases List.mem_cons.1 hy with rfl | hy
        · exact List.mem_cons_self _ _
        · exact List.mem_cons_of_mem _ ((ih hnd.2).2 ⟨hne, hy⟩)

/-! ### Consistency preservation for the LFU structures -/

theorem relocate_consistent {K : Type} [DecidableEq K] {kf : List (Nat × K)}
    {ke : List (K × Nat)} {k : K} {f : Nat} (g : Nat) {c b c' b' : Nat}
    (hc : policyConsistent ⟨kf, ke, c, b⟩)
    (hf : findAssoc k ke = some f) :
    policyConsistent ⟨emplaceMM g k (eraseMM (f, k) kf), setAssoc k g ke, c', b'⟩ := by
  unfold policyConsistent at hc ⊢
  dsimp only at hc ⊢
  obtain ⟨hnd1, hnd2, h3, h4⟩ := hc
  have hmemfk : (f, k) ∈ kf := h3 (k, f) (findAssoc_mem hf)
  have hkfnd : kf.Nodup := List.Nodup.of_map Prod.snd hnd2
  have hperm : kf.Perm ((f, k) :: eraseMM (f, k) kf) := perm_cons_eraseMM hmemfk
  have hsnd : (kf.map Prod.snd).Perm (k :: (eraseMM (f, k) kf).map Prod.snd) := by
    simpa using hperm.map Prod.snd
  have hsndnd : ((k : K) :: (eraseMM (f, k) kf).map Prod.snd).Nodup := hsnd.nodup_iff.1 hnd2
  rw [List.nodup_cons] at hsndnd
  have hkmem : k ∈ ke.map Prod.fst := mem_map_fst_of_findAssoc hf
  refine ⟨?_, ?_, ?_, ?_⟩
  · rwa [map_fst_setAssoc_of_mem g hkmem]
  · have hp : ((emplaceMM g k (eraseMM (f, k) kf)).map Prod.snd).Perm
        (k :: (eraseMM (f, k) kf).map Prod.snd) := map_snd_emplaceMM_perm g k _
    exact hp.nodup_iff.2 (List.nodup_cons.2 hsndnd)
  · intro e he
    rcases mem_setAssoc_of_nodup hnd1 he with rfl | ⟨hm, hne⟩
    · exact mem_emplaceMM.2 (Or.inl rfl)
    · refine mem_emplaceMM.2 (Or.inr ?_)
      refine (mem_eraseMM_of_nodup hkfnd).2 ⟨?_, h3 e hm⟩
      intro hx
      exact hne (congrArg Prod.snd hx)
  · intro x hx
    rcases mem_emplaceMM.1 hx with hxe | hx
    · subst hxe
      rw [findAssoc_setAssoc, if_pos rfl]
    · have hxkf : x ∈ kf := ((mem_eraseMM_of_nodup hkfnd).1 hx).2
      have hx2 : x.2 ≠ k := by
        intro h2
        exact hsndnd.1 (List.mem_map.2 ⟨x, hx, h2⟩)
      rw [findAssoc_setAssoc, if_neg hx2]
      exact h4 x hxkf

theorem insert_fresh_consistent {K : Type} [DecidableEq K] {kf : List (Nat × K)}
    {ke : List (K × Nat)} {k : K} {c b c' b' : Nat}
    (hc : policyConsistent ⟨kf, ke, c, b⟩)
    (hf : findAssoc k ke = none) :
    policyConsistent ⟨emplaceMM 1 k kf, setAssoc k 1 ke, c', b'⟩ := by
  unfold policyConsistent at hc ⊢
  dsimp only at hc ⊢
  obtain ⟨hnd1, hnd2, h3, h4⟩ := hc
  have hknotfst : k ∉ ke.map Prod.fst := findAssoc_eq_none_iff.1 hf
  have hknotsnd : k ∉ kf.map Prod.snd := by
    intro hmem
    rcases List.mem_map.1 hmem with ⟨x, hx, hxk⟩
    have := h4 x hx
    rw [hxk, hf] at this
    exact Option.noConfusion this
  refine ⟨nodup_map_fst_setAssoc 1 hnd1, ?_, ?_, ?_⟩
  · exact (map_snd_emplaceMM_perm 1 k kf).nodup_iff.2 (List.nodup_cons.2 ⟨hknotsnd, hnd2⟩)
  · intro e he
    rcases mem_setAssoc_of_nodup hnd1 he with rfl | ⟨hm, _⟩
    · exact mem_emplaceMM.2 (Or.inl rfl)
    · exact mem_emplaceMM.2 (Or.inr (h3 e hm))
  · intro x hx
    rcases mem_emplaceMM.1 hx with hxe | hx
    · subst hxe
      rw [findAssoc_setAssoc, if_pos rfl]
    · have hx2 : x.2 ≠ k := fun h2 => hknotsnd (List.mem_map.2 ⟨x, hx, h2⟩)
      rw [findAssoc_setAssoc, if_neg hx2]
      exact h4 x hx

theorem counters_consistent {K : Type} [DecidableEq K] {s : LFUCache K} (c' b' : Nat)
    (hc : policyConsistent s) :
    policyConsistent ⟨s.key_frequence, s.key_element, c', b'⟩ := by
  obtain ⟨kf, ke, c, b⟩ := s
  exact hc

theorem decayStep_consistent {K : Type} [DecidableEq K] {s : LFUCache K} {k : K}
    (hc : policyConsistent s) : policyConsistent (s.decayStep k) := by
  obtain ⟨kf, ke, c, b⟩ := s
  rw [LFUCache.decayStep]
  dsimp only at *
  cases hfind : findAssoc k ke with
  | none => exact hc
  | some f => exact relocate_consistent _ hc hfind

theorem foldl_decayStep_consistent {K : Type} [DecidableEq K] {a : LFUCache K}
    (ks : List K) (hc : policyConsistent a) :
    policyConsistent (ks.foldl LFUCache.decayStep a) := by
  induction ks generalizing a with
  | nil => exact hc
  | cons k rest ih => exact ih (decayStep_consistent hc)

theorem decay_consistent {K : Type} [DecidableEq K] {s : LFUCache K}
    (hc : policyConsistent s) : policyConsistent s.decay := by
  have h := foldl_decayStep_consistent (s.key_element.map Prod.fst) hc
  exact counters_consistent 0 _ h

theorem Increment_consistent {K : Type} [DecidableEq K] {s s' : LFUCache K} {k : K}
    (hc : policyConsistent s) (h : s.Increment k = Except.ok s') :
    policyConsistent s' := by
  obtain ⟨kf, ke, c, b⟩ := s
  rw [LFUCache.Increment] at h
  dsimp only at h
  cases hfind : findAssoc k ke with
  | none => rw [hfind] at h; exact Except.noConfusion h
  | some f =>
    rw [hfind] at h
    dsimp only at h
    have hcons1 : policyConsistent
        (⟨emplaceMM (f + 1) k (eraseMM (f, k) kf), setAssoc k (f + 1) ke, c + 1, b⟩ : LFUCache K) :=
      relocate_consistent _ hc hfind
    split at h
    · cases h
      exact decay_consistent hcons1
    · cases h
      exact hcons1

theorem Insert_consistent {K : Type} [DecidableEq K] {s s' : LFUCache K} {k : K}
    (hc : policyConsistent s) (h : s.Insert k = Except.ok s') :
    policyConsistent s' := by
  obtain ⟨kf, ke, c, b⟩ := s
  rw [LFUCache.Insert] at h
  dsimp only at h
  cases hfind : findAssoc k ke with
  | none =>
    rw [hfind] at h
    dsimp only at h
    exact Increment_consistent (insert_fresh_consistent hc hfind) h
  | some f =>
    rw [hfind] at h
    exact Increment_consistent hc h

theorem Remove_consistent {K : Type} [DecidableEq K] {s s' : LFUCache K} {k : K}
    (hc : policyConsistent s) (h : s.Remove k = Except.ok s') :
    policyConsistent s' := by
  obtain ⟨kf, ke, c, b⟩ := s
  rw [LFUCache.Remove] at h
  dsimp only at h
  cases hfind : findAssoc k ke with
  | none => rw [hfind] at h; exact Except.noConfusion h
  | some f =>
    rw [hfind] at h
    cases h
    unfold policyConsistent at hc ⊢
    dsimp only at hc ⊢
    obtain ⟨hnd1, hnd2, h3, h4⟩ := hc
    have hkfnd : kf.Nodup := List.Nodup.of_map Prod.snd hnd2
    refine ⟨?_, ?_, ?_, ?_⟩
    · rw [map_fst_eraseAssoc]
      exact List.Nodup.erase k hnd1
    · exact List.Nodup.sublist (List.Sublist.map Prod.snd (eraseMM_sublist _ _)) hnd2
    · intro e he
      have hm : e ∈ ke := mem_of_mem_eraseAssoc he
      have hne : e.1 ≠ k := ne_of_mem_eraseAssoc hnd1 he
      refine (mem_eraseMM_of_nodup hkfnd).2 ⟨?_, h3 e hm⟩
      intro hx
      exact hne (congrArg Prod.snd hx)
    · intro x hx
      have hxkf : x ∈ kf := ((mem_eraseMM_of_nodup hkfnd).1 hx).2
      have hxne : x ≠ (f, k) := ((mem_eraseMM_of_nodup hkfnd).1 hx).1
      have hx2 : x.2 ≠ k := by
        intro h2
        have hv := h4 x hxkf
        rw [h2, hfind] at hv
        apply hxne
        have hx1 : x.1 = f := (Option.some.inj hv).symm
        exact Prod.ext hx1 h2
      rw [findAssoc_eraseAssoc_ne hx2]
      exact h4 x hxkf

/-! ### Effect lemmas for the LFU operations -/

theorem map_fst_decayStep {K : Type} [DecidableEq K] (s : LFUCache K) (k : K) :
    (s.decayStep k).key_element.map Prod.fst = s.key_element.map Prod.fst := by
  rw [LFUCache.decayStep]
  cases hfind : findAssoc k s.key_element with
  | none => rfl
  | some f =>
    dsimp only
    exact map_fst_setAssoc_of_mem _ (mem_map_fst_of_findAssoc hfind)

theorem map_fst_foldl_decayStep {K : Type} [DecidableEq K] (ks : List K) (a : LFUCache K) :
    ((ks.foldl LFUCache.decayStep a).key_element).map Prod.fst = a.key_element.map Prod.fst := by
  induction ks generalizing a with
  | nil => rfl
  | cons k rest ih => rw [List.foldl_cons, ih, map_fst_decayStep]

theorem map_fst_decay {K : Type} [DecidableEq K] (s : LFUCache K) :
    (s.decay).key_element.map Prod.fst = s.key_element.map Prod.fst := by
  rw [LFUCache.decay]
  exact map_fst_foldl_decayStep _ _

theorem Increment_map_fst {K : Type} [DecidableEq K] {s s' : LFUCache K} {k : K}
    (h : s.Increment k = Except.ok s') :
    s'.key_element.map Prod.fst = s.key_element.map Prod.fst := by
  rw [LFUCache.Increment] at h
  cases hfind : findAssoc k s.key_element with
  | none => rw [hfind] at h; exact Except.noConfusion h
  | some f =>
    rw [hfind] at h
    dsimp only at h
    split at h
    · cases h
      rw [map_fst_decay]
      exact map_fst_setAssoc_of_mem _ (mem_map_fst_of_findAssoc hfind)
    · cases h
      exact map_fst_setAssoc_of_mem _ (mem_map_fst_of_findAssoc hfind)

theorem Increment_isOk {K : Type} [DecidableEq K] {s : LFUCache K} {k : K} {f : Nat}
    (hf : findAssoc k s.key_element = some f) :
    ∃ s', s.Increment k = Except.ok s' := by
  rw [LFUCache.Increment, hf]
  exact ⟨_, rfl⟩

theorem Increment_error {K : Type} [DecidableEq K] {s : LFUCache K} {k : K}
    (hf : findAssoc k s.key_element = none) :
    s.Increment k = Except.error CacheError.policyKeyNotTracked := by
  rw [LFUCache.Increment, hf]

theorem Insert_isOk {K : Type} [DecidableEq K] (s : LFUCache K) (k : K) :
    ∃ s', s.Insert k = Except.ok s' := by
  rw [LFUCache.Insert]
  cases hfind : findAssoc k s.key_element with
  | none =>
    dsimp only
    apply Increment_isOk
    rw [findAssoc_setAssoc, if_pos rfl]
  | some f => exact Increment_isOk hfind

theorem Insert_mem_map_fst {K : Type} [DecidableEq K] {s s' : LFUCache K} {k : K}
    (h : s.Insert k = Except.ok s') (j : K) :
    j ∈ s'.key_element.map Prod.fst ↔ j = k ∨ j ∈ s.key_element.map Prod.fst := by
  rw [LFUCache.Insert] at h
  cases hfind : findAssoc k s.key_element with
  | none =>
    rw [hfind] at h
    dsimp only at h
    rw [Increment_map_fst h]
    exact mem_map_fst_setAssoc
  | some f =>
    rw [hfind] at h
    rw [Increment_map_fst h]
    constructor
    · exact Or.inr
    · rintro (rfl | hj)
      · exact mem_map_fst_of_findAssoc hfind
      · exact hj

theorem Remove_error {K : Type} [DecidableEq K] {s : LFUCache K} {k : K}
    (hf : findAssoc k s.key_element = none) :
    s.Remove k = Except.error CacheError.policyKeyNotTracked := by
  rw [LFUCache.Remove, hf]

theorem Remove_eq {K : Type} [DecidableEq K] {s : LFUCache K} {k : K} {f : Nat}
    (hf : findAssoc k s.key_element = some f) :
    s.Remove k = Except.ok
      ⟨eraseMM (f, k) s.key_frequence, eraseAssoc k s.key_element,
       s.decay_counter + 1, s.decay_border⟩ := by
  rw [LFUCache.Remove, hf]

theorem Increment_no_decay {K : Type} [DecidableEq K] {s : LFUCache K} {k : K} {f : Nat}
    (hf : findAssoc k s.key_element = some f)
    (hb : s.decay_counter + 1 < s.decay_border) :
    s.Increment k = Except.ok
      ⟨emplaceMM (f + 1) k (eraseMM (f, k) s.key_frequence),
       setAssoc k (f + 1) s.key_element, s.decay_counter + 1, s.decay_border⟩ := by
  rw [LFUCache.Increment, hf]
  dsimp only
  rw [if_neg (by omega)]

theorem Increment_with_decay {K : Type} [DecidableEq K] {s : LFUCache K} {k : K} {f : Nat}
    (hf : findAssoc k s.key_element = some f)
    (hb : s.decay_border ≤ s.decay_counter + 1) :
    s.Increment k = Except.ok
      (LFUCache.decay
        ⟨emplaceMM (f + 1) k (eraseMM (f, k) s.key_frequence),
         setAssoc k (f + 1) s.key_element, s.decay_counter + 1, s.decay_border⟩) := by
  rw [LFUCache.Increment, hf]
  dsimp only
  rw [if_pos (by omega)]

theorem decayStep_findAssoc {K : Type} [DecidableEq K] (s : LFUCache K) (k j : K) :
    findAssoc j (s.decayStep k).key_element =
      if j = k then (findAssoc j s.key_element).map (fun n => n / 2)
      else findAssoc j s.key_element := by
  rw [LFUCache.decayStep]
  cases hfind : findAssoc k s.key_element with
  | none =>
    by_cases hj : j = k
    · subst hj
      simp [hfind]
    · rw [if_neg hj]
  | some f =>
    dsimp only
    rw [findAssoc_setAssoc]
    by_cases hj : j = k
    · subst hj
      simp [hfind]
    · rw [if_neg hj, if_neg hj]

theorem foldl_decayStep_findAssoc {K : Type} [DecidableEq K] (ks : List K)
    (hnd : ks.Nodup) (a : LFUCache K) (j : K) :
    findAssoc j ((ks.foldl LFUCache.decayStep a).key_element) =
      if j ∈ ks then (findAssoc j a.key_element).map (fun n => n / 2)
      else findAssoc j a.key_element := by
  induction ks generalizing a with
  | nil => simp
  | cons k rest ih =>
    rw [List.nodup_cons] at hnd
    rw [List.foldl_cons, ih hnd.2, decayStep_findAssoc]
    by_cases hjr : j ∈ rest
    · have hjk : j ≠ k := fun h => hnd.1 (h ▸ hjr)
      rw [if_pos hjr, if_neg hjk, if_pos (List.mem_cons_of_mem _ hjr)]
    · rw [if_neg hjr]
      by_cases hjk : j = k
      · subst hjk
        rw [if_pos rfl, if_pos (List.mem_cons_self _ _)]
      · rw [if_neg hjk, if_neg (by simp [hjk, hjr])]

theorem decay_findAssoc {K : Type} [DecidableEq K] {s : LFUCache K}
    (hnd : (s.key_element.map Prod.fst).Nodup) (j : K) :
    findAssoc j s.decay.key_element = (findAssoc j s.key_element).map (fun n => n / 2) := by
  rw [LFUCache.decay]
  dsimp only
  rw [foldl_decayStep_findAssoc _ hnd]
  by_cases hj : j ∈ s.key_element.map Prod.fst
  · rw [if_pos hj]
  · rw [if_neg hj, findAssoc_eq_none_iff.2 hj]
    rfl

/-! ### Sortedness preservation -/

theorem decayStep_sorted {K : Type} [DecidableEq K] {s : LFUCache K} {k : K}
    (hs : policySorted s) : policySorted (s.decayStep k) := by
  rw [LFUCache.decayStep]
  cases hfind : findAssoc k s.key_element with
  | none => exact hs
  | some f =>
    dsimp only
    unfold policySorted at hs ⊢
    dsimp only
    exact emplaceMM_sorted (List.Pairwise.sublist (eraseMM_sublist _ _) hs)

theorem foldl_decayStep_sorted {K : Type} [DecidableEq K] {a : LFUCache K}
    (ks : List K) (hs : policySorted a) :
    policySorted (ks.foldl LFUCache.decayStep a) := by
  induction ks generalizing a with
  | nil => exact hs
  | cons k rest ih => exact ih (decayStep_sorted hs)

theorem decay_sorted {K : Type} [DecidableEq K] {s : LFUCache K}
    (hs : policySorted s) : policySorted s.decay := by
  have h := foldl_decayStep_sorted (s.key_element.map Prod.fst) hs
  unfold policySorted at h ⊢
  exact h

theorem Increment_sorted {K : Type} [DecidableEq K] {s s' : LFUCache K} {k : K}
    (hs : policySorted s) (h : s.Increment k = Except.ok s') :
    policySorted s' := by
  rw [LFUCache.Increment] at h
  cases hfind : findAssoc k s.key_element with
  | none => rw [hfind] at h; exact Except.noConfusion h
  | some f =>
    rw [hfind] at h
    dsimp only at h
    have h1 : policySorted
        (⟨emplaceMM (f + 1) k (eraseMM (f, k) s.key_frequence),
          setAssoc k (f + 1) s.key_element, s.decay_counter + 1, s.decay_border⟩ : LFUCache K) := by
      unfold policySorted at hs ⊢
      dsimp only
      exact emplaceMM_sorted (List.Pairwise.sublist (eraseMM_sublist _ _) hs)
    split at h
    · cases h
      exact decay_sorted h1
    · cases h
      exact h1

theorem Insert_sorted {K : Type} [DecidableEq K] {s s' : LFUCache K} {k : K}
    (hs : policySorted s) (h : s.Insert k = Except.ok s') :
    policySorted s' := by
  rw [LFUCache.Insert] at h
  cases hfind : findAssoc k s.key_element with
  | none =>
    rw [hfind] at h
    dsimp only at h
    refine Increment_sorted ?_ h
    unfold policySorted at hs ⊢
    dsimp only
    exact emplaceMM_sorted hs
  | some f =>
    rw [hfind] at h
    exact Increment_sorted hs h

theorem Remove_sorted {K : Type} [DecidableEq K] {s s' : LFUCache K} {k : K}
    (hs : policySorted s) (h : s.Remove k = Except.ok s') :
    policySorted s' := by
  rw [LFUCache.Remove] at h
  cases hfind : findAssoc k s.key_element with
  | none => rw [hfind] at h; exact Except.noConfusion h
  | some f =>
    rw [hfind] at h
    cases h
    unfold policySorted at hs ⊢
    dsimp only
    exact List.Pairwise.sublist (eraseMM_sublist _ _) hs

/-! ### Cache-level lemmas -/

theorem Write_of_lt {K V : Type} [DecidableEq K] {c : Cache K V} {k : K} (v : V)
    {a : LFUCache K} (hlt : c.data.length < c.max_size)
    (ha : c.cache_algo.Insert k = Except.ok a) :
    c.Write k v = Except.ok ⟨c.max_size, a, setAssoc k v c.data⟩ := by
  rw [Cache.Write, if_neg (by omega), ha]

theorem Write_of_refresh_ok {K V : Type} [DecidableEq K] {c c1 : Cache K V} {k : K} (v : V)
    (hge : c.max_size ≤ c.data.length) (h1 : c.refresh k = Except.ok c1) :
    c.Write k v = Except.ok { c1 with data := setAssoc k v c1.data } := by
  rw [Cache.Write, if_pos hge, h1]

theorem Write_of_refresh_error {K V : Type} [DecidableEq K] {c : Cache K V} {k : K} (v : V)
    {e : CacheError} (hge : c.max_size ≤ c.data.length) (h1 : c.refresh k = Except.error e) :
    c.Write k v = Except.error e := by
  rw [Cache.Write, if_pos hge, h1]

theorem refresh_spec {K V : Type} [DecidableEq K] {c : Cache K V} (k : K) (h : CacheInv c) :
    (c.refresh k = Except.error CacheError.emptyPolicy ∧ c.cache_algo.key_frequence = []) ∨
    (∃ victim a2, c.refresh k = Except.ok ⟨c.max_size, a2, eraseAssoc victim c.data⟩ ∧
      victim ∈ c.data.map Prod.fst ∧ policyConsistent a2 ∧ policySorted a2 ∧
      (∀ j, j ∈ a2.key_element.map Prod.fst ↔
        j = k ∨ (j ∈ c.cache_algo.key_element.map Prod.fst ∧ j ≠ victim))) := by
  unfold CacheInv at h
  obtain ⟨hpc, hps, hnd, hsync, hlen⟩ := h
  unfold cacheSync at hsync
  obtain ⟨hs1, hs2⟩ := hsync
  cases hkf : c.cache_algo.key_frequence with
  | nil =>
    have hrep : c.cache_algo.Replace = Except.error CacheError.emptyPolicy := by
      rw [LFUCache.Replace, hkf]
    exact Or.inl ⟨by rw [Cache.refresh, hrep], rfl⟩
  | cons x rest =>
    have hrep : c.cache_algo.Replace = Except.ok x.2 := by
      rw [LFUCache.Replace, hkf]
    have hfv : findAssoc x.2 c.cache_algo.key_element = some x.1 :=
      hpc.2.2.2 x (hkf ▸ List.mem_cons_self x rest)
    have hrem := Remove_eq hfv
    obtain ⟨a2, ha2⟩ := Insert_isOk
      (⟨eraseMM (x.1, x.2) c.cache_algo.key_frequence, eraseAssoc x.2 c.cache_algo.key_element,
        c.cache_algo.decay_counter + 1, c.cache_algo.decay_border⟩ : LFUCache K) k
    refine Or.inr ⟨x.2, a2, ?_, ?_, ?_, ?_, ?_⟩
    · rw [Cache.refresh, hrep]
      dsimp only
      rw [hrem]
      dsimp only
      rw [ha2]
    · exact hs2 x.2 (mem_map_fst_of_findAssoc hfv)
    · exact Insert_consistent (Remove_consistent hpc hrem) ha2
    · exact Insert_sorted (Remove_sorted hps hrem) ha2
    · intro j
      rw [Insert_mem_map_fst ha2 j]
      have hmf : (eraseAssoc x.2 c.cache_algo.key_element).map Prod.fst =
          (c.cache_algo.key_element.map Prod.fst).erase x.2 := map_fst_eraseAssoc _ _
      constructor
      · rintro (rfl | hj)
        · exact Or.inl rfl
        · rw [hmf] at hj
          rcases (List.Nodup.mem_erase_iff hpc.1).1 hj with ⟨hne, hmem⟩
          exact Or.inr ⟨hmem, hne⟩
      · rintro (rfl | ⟨hmem, hne⟩)
        · exact Or.inl rfl
        · refine Or.inr ?_
          rw [hmf]
          exact (List.Nodup.mem_erase_iff hpc.1).2 ⟨hne, hmem⟩

theorem writeStep_inv {K V : Type} [DecidableEq K] {c : Cache K V} (h : CacheInv c)
    (k : K) (v : V) : CacheInv (writeStep c (k, v)) := by
  have hspec := refresh_spec k h
  unfold CacheInv at h
  obtain ⟨hpc, hps, hnd, hsync, hlen⟩ := h
  unfold cacheSync at hsync
  obtain ⟨hs1, hs2⟩ := hsync
  by_cases hge : c.max_size ≤ c.data.length
  · rcases hspec with ⟨herr, -⟩ | ⟨victim, a2, hok, hvic, hc2, hps2, htrk⟩
    · rw [writeStep]
      dsimp only
      rw [Write_of_refresh_error v hge herr]
      unfold CacheInv cacheSync
      exact ⟨hpc, hps, hnd, ⟨hs1, hs2⟩, hlen⟩
    · rw [writeStep]
      dsimp only
      rw [Write_of_refresh_ok v hge hok]
      have hnd1 : ((eraseAssoc victim c.data).map Prod.fst).Nodup := by
        rw [map_fst_eraseAssoc]
        exact hnd.erase _
      have hL : (eraseAssoc victim c.data).length + 1 = c.data.length :=
        length_eraseAssoc_of_mem hvic
      have hmemd : ∀ j, j ∈ (eraseAssoc victim c.data).map Prod.fst ↔
          (j ≠ victim ∧ j ∈ c.data.map Prod.fst) := by
        intro j
        rw [map_fst_eraseAssoc]
        exact List.Nodup.mem_erase_iff hnd
      unfold CacheInv cacheSync
      refine ⟨hc2, hps2, nodup_map_fst_setAssoc v hnd1, ⟨?_, ?_⟩, ?_⟩
      · intro j hj
        dsimp only at hj ⊢
        rcases mem_map_fst_setAssoc.1 hj with rfl | hj
        · exact (htrk j).2 (Or.inl rfl)
        · rcases (hmemd j).1 hj with ⟨hne, hmem⟩
          exact (htrk j).2 (Or.inr ⟨hs1 j hmem, hne⟩)
      · intro j hj
        dsimp only at hj ⊢
        rcases (htrk j).1 hj with rfl | ⟨hmem, hne⟩
        · exact mem_map_fst_setAssoc.2 (Or.inl rfl)
        · exact mem_map_fst_setAssoc.2 (Or.inr ((hmemd j).2 ⟨hne, hs2 j hmem⟩))
      · dsimp only
        rw [length_setAssoc]
        split
        · omega
        · omega
  · obtain ⟨a, ha⟩ := Insert_isOk c.cache_algo k
    rw [writeStep]
    dsimp only
    rw [Write_of_lt v (by omega) ha]
    unfold CacheInv cacheSync
    refine ⟨Insert_consistent hpc ha, Insert_sorted hps ha,
      nodup_map_fst_setAssoc v hnd, ⟨?_, ?_⟩, ?_⟩
    · intro j hj
      dsimp only at hj ⊢
      rcases mem_map_fst_setAssoc.1 hj with rfl | hj
      · exact (Insert_mem_map_fst ha j).2 (Or.inl rfl)
      · exact (Insert_mem_map_fst ha j).2 (Or.inr (hs1 j hj))
    · intro j hj
      dsimp only at hj ⊢
      rcases (Insert_mem_map_fst ha j).1 hj with rfl | hj
      · exact mem_map_fst_setAssoc.2 (Or.inl rfl)
      · exact mem_map_fst_setAssoc.2 (Or.inr (hs2 j hj))
    · dsimp only
      rw [length_setAssoc]
      split
      · omega
      · omega

theorem Read_inv {K V : Type} [DecidableEq K] {c : Cache K V} (h : CacheInv c)
    (k : K) : CacheInv (c.Read k).2 := by
  unfold CacheInv at h
  obtain ⟨hpc, hps, hnd, hsync, hlen⟩ := h
  unfold cacheSync at hsync
  obtain ⟨hs1, hs2⟩ := hsync
  rw [Cache.Read]
  cases hi : c.cache_algo.Increment k with
  | error e =>
    unfold CacheInv cacheSync
    exact ⟨hpc, hps, hnd, ⟨hs1, hs2⟩, hlen⟩
  | ok a =>
    dsimp only
    have hinv : CacheInv ({ c with cache_algo := a } : Cache K V) := by
      unfold CacheInv cacheSync
      refine ⟨Increment_consistent hpc hi, Increment_sorted hps hi, hnd, ⟨?_, ?_⟩, hlen⟩
      · intro j hj
        dsimp only at hj ⊢
        rw [Increment_map_fst hi]
        exact hs1 j hj
      · intro j hj
        dsimp only at hj ⊢
        rw [Increment_map_fst hi] at hj
        exact hs2 j hj
    cases findAssoc k c.data with
    | none => exact hinv
    | some v => exact hinv

theorem incrAllSt_preserves {K : Type} [DecidableEq K] (ks : List K) (a : LFUCache K)
    (hc : policyConsistent a) (hs : policySorted a) :
    policyConsistent (incrAllSt ks a).2 ∧ policySorted (incrAllSt ks a).2 ∧
    (incrAllSt ks a).2.key_element.map Prod.fst = a.key_element.map Prod.fst := by
  induction ks generalizing a with
  | nil => exact ⟨hc, hs, rfl⟩
  | cons k rest ih =>
    rw [incrAllSt]
    cases hi : a.Increment k with
    | error e => exact ⟨hc, hs, rfl⟩
    | ok a' =>
      dsimp only
      have h := ih a' (Increment_consistent hc hi) (Increment_sorted hs hi)
      exact ⟨h.1, h.2.1, h.2.2.trans (Increment_map_fst hi)⟩

theorem Items_inv {K V : Type} [DecidableEq K] {c : Cache K V} (h : CacheInv c) :
    CacheInv (c.Items).2 := by
  have hspec := incrAllSt_preserves (c.data.map Prod.fst) c.cache_algo
  unfold CacheInv at h
  obtain ⟨hpc, hps, hnd, hsync, hlen⟩ := h
  unfold cacheSync at hsync
  obtain ⟨hs1, hs2⟩ := hsync
  obtain ⟨hc', hs', hmap⟩ := hspec hpc hps
  rw [Cache.Items]
  by_cases hemp : c.data.isEmpty
  · rw [if_pos hemp]
    unfold CacheInv cacheSync
    exact ⟨hpc, hps, hnd, ⟨hs1, hs2⟩, hlen⟩
  · rw [if_neg hemp]
    have hinv : CacheInv
        ({ c with cache_algo := (incrAllSt (c.data.map Prod.fst) c.cache_algo).2 } : Cache K V) := by
      unfold CacheInv cacheSync
      refine ⟨hc', hs', hnd, ⟨?_, ?_⟩, hlen⟩
      · intro j hj
        dsimp only at hj ⊢
        rw [hmap]
        exact hs1 j hj
      · intro j hj
        dsimp only at hj ⊢
        rw [hmap] at hj
        exact hs2 j hj
    rcases hrun : incrAllSt (c.data.map Prod.fst) c.cache_algo with ⟨r, a⟩
    cases r with
    | none =>
      dsimp only
      rw [hrun] at hinv
      exact hinv
    | some e =>
      dsimp only
      rw [hrun] at hinv
      exact hinv

theorem mkCache_inv (border cap : Nat) : CacheInv (mkCache border cap) := by
  unfold CacheInv policyConsistent policySorted cacheSync mkCache mkLFU
  refine ⟨⟨?_, ?_, ?_, ?_⟩, ?_, ?_, ⟨?_, ?_⟩, ?_⟩ <;> simp

theorem foldl_writeStep_inv {K V : Type} [DecidableEq K] {c : Cache K V}
    (ws : List (K × V)) (h : CacheInv c) : CacheInv (ws.foldl writeStep c) := by
  induction ws generalizing c with
  | nil => exact h
  | cons kv rest ih => exact ih (writeStep_inv h kv.1 kv.2)

theorem refresh_max_size {K V : Type} [DecidableEq K] {c c1 : Cache K V} {k : K}
    (h : c.refresh k = Except.ok c1) : c1.max_size = c.max_size := by
  rw [Cache.refresh] at h
  split at h
  · exact Except.noConfusion h
  · split at h
    · exact Except.noConfusion h
    · split at h
      · exact Except.noConfusion h
      · cases h
        rfl

theorem Write_max_size {K V : Type} [DecidableEq K] {c c' : Cache K V} {k : K} {v : V}
    (h : c.Write k v = Except.ok c') : c'.max_size = c.max_size := by
  rw [Cache.Write] at h
  by_cases hge : c.max_size ≤ c.data.length
  · rw [if_pos hge] at h
    cases hr : c.refresh k with
    | error e => rw [hr] at h; exact Except.noConfusion h
    | ok c1 =>
      rw [hr] at h
      dsimp only at h
      cases h
      show c1.max_size = c.max_size
      exact refresh_max_size hr
  · rw [if_neg hge] at h
    cases hi : c.cache_algo.Insert k with
    | error e => rw [hi] at h; exact Except.noConfusion h
    | ok a =>
      rw [hi] at h
      dsimp only at h
      cases h
      rfl

theorem writeStep_max_size {K V : Type} [DecidableEq K] (c : Cache K V) (kv : K × V) :
    (writeStep c kv).max_size = c.max_size := by
  rw [writeStep]
  cases hW : c.Write kv.1 kv.2 with
  | error e => rfl
  | ok c' =>
    dsimp only
    exact Write_max_size hW

theorem foldl_writeStep_max_size {K V : Type} [DecidableEq K] (ws : List (K × V))
    (c : Cache K V) : (ws.foldl writeStep c).max_size = c.max_size := by
  induction ws generalizing c with
  | nil => rfl
  | cons kv rest ih => rw [List.foldl_cons, ih, writeStep_max_size]

/-! ### Claim theorems -/

/-- C1: for every sequence of Write calls issued against a freshly constructed
cache (each call applied as in the source, with a failing call leaving the
cache unchanged), the backing store `m_data` holds at most `capacity` entries
after every Write returns; in particular Write never leaves the store above
capacity, whatever keys and values are written. -/
theorem C1_write_capacity_bound (border cap : Nat) (ws : List (Nat × Nat)) :
    ((ws.foldl writeStep (mkCache border cap)).data).length ≤ cap := by
  have h := foldl_writeStep_inv ws (mkCache_inv border cap)
  unfold CacheInv at h
  have hmax : (ws.foldl writeStep (mkCache border cap)).max_size = cap :=
    foldl_writeStep_max_size ws (mkCache border cap)
  rw [hmax] at h
  exact h.2.2.2.2

/-- C3: with capacity 2 and decay border 100, the call sequence Write(A, 1);
Write(B, 2); Read(A); Write(C, 3) (keys A = 0, B = 1, C = 2) evicts exactly key
B: the resulting store is \x7bA ↦ 1, C ↦ 3\x7d and B is absent. -/
theorem C3_eviction_scenario :
    (writeStep ((writeStep (writeStep (mkCache 100 2) (0, 1)) (1, 2)).Read 0).2 (2, 3)).data
        = [(0, 1), (2, 3)] ∧
    findAssoc 1
        (writeStep ((writeStep (writeStep (mkCache 100 2) (0, 1)) (1, 2)).Read 0).2 (2, 3)).data
      = none := by
  exact ⟨by decide, by decide⟩

/-- C2 counterexample: writing the same key three times leaves its tracked
frequency at 4, not 3 as the claim states: `LFUCache::Insert` emplaces a fresh
key at frequency 1 and then unconditionally calls `Increment`, so the first
Write already ends at frequency 2, and each further Write adds 1. -/
theorem C2_counterexample :
    findAssoc 0
        ((writeStep (writeStep (writeStep (mkCache 100 10) (0, 1)) (0, 2)) (0, 3)).cache_algo.key_element)
      = some 4 ∧ (some 4 : Option Nat) ≠ some 3 := by
  exact ⟨by decide, by decide⟩

/-- C2 amended: an `Insert` of a previously-untracked key leaves the key's
tracked frequency at exactly 2 (it is added at frequency 1, then the
unconditional `Increment` raises it to 2); each repeated `Insert` of an
already-tracked key raises its frequency by 1; consequently writing the same
key three times via Write (with no decay triggered) leaves its tracked
frequency at exactly 4. -/
theorem C2_insert_frequency :
    (∀ (s : LFUCache Nat) (k : Nat), findAssoc k s.key_element = none →
      s.decay_counter + 1 < s.decay_border →
      ∃ s', s.Insert k = Except.ok s' ∧ findAssoc k s'.key_element = some 2) ∧
    (∀ (s : LFUCache Nat) (k : Nat) (f : Nat), findAssoc k s.key_element = some f →
      s.decay_counter + 1 < s.decay_border →
      ∃ s', s.Insert k = Except.ok s' ∧ findAssoc k s'.key_element = some (f + 1)) ∧
    findAssoc 0
        ((writeStep (writeStep (writeStep (mkCache 100 10) (0, 1)) (0, 2)) (0, 3)).cache_algo.key_element)
      = some 4 := by
  refine ⟨?_, ?_, by decide⟩
  · intro s k hf hb
    rw [LFUCache.Insert, hf]
    dsimp only
    have h1 : findAssoc k (setAssoc k 1 s.key_element) = some 1 := by
      rw [findAssoc_setAssoc, if_pos rfl]
    have h2 := Increment_no_decay
      (s := ⟨emplaceMM 1 k s.key_frequence, setAssoc k 1 s.key_element,
             s.decay_counter, s.decay_border⟩) h1 hb
    refine ⟨_, h2, ?_⟩
    rw [findAssoc_setAssoc, if_pos rfl]
  · intro s k f hf hb
    rw [LFUCache.Insert, hf]
    exact ⟨_, Increment_no_decay hf hb, by rw [findAssoc_setAssoc, if_pos rfl]⟩

/-- Witness for C2: a fresh insert on an empty `LFUCache(100)` ends with the
key at frequency 2. -/
theorem C2_insert_frequency_witness :
    ∃ s', (mkLFU 100 : LFUCache Nat).Insert 7 = Except.ok s' ∧
      findAssoc 7 s'.key_element = some 2 :=
  C2_insert_frequency.1 (mkLFU 100) 7 (by decide) (by decide)

/-- C4 counterexample: with decay border 3, after Insert(0); Insert(1);
Remove(1) exactly 3 = decay_threshold mutating operations have occurred since
construction (`decay_counter = 3`) and no decay has run (key 0 still at
frequency 2). The claim says the next mutating operation halves every tracked
frequency before applying its own effect and resets the counter, which for
`Increment(0)` predicts frequency 2/2 + 1 = 2 (the behavior of
`specDecayThenIncrement`); the code instead applies the increment first and
decays afterwards, leaving key 0 at frequency (2+1)/2 = 1. -/
theorem C4_counterexample :
    c4s3.decay_counter = 3 ∧ c4s3.decay_border = 3 ∧
    findAssoc 0 c4s3.key_element = some 2 ∧
    c4s3.Increment 0 = Except.ok c4inc ∧
    findAssoc 0 c4inc.key_element = some 1 ∧
    specDecayThenIncrement c4s3 0 = Except.ok c4specInc ∧
    findAssoc 0 c4specInc.key_element = some 2 ∧
    (some 1 : Option Nat) ≠ some 2 := by
  decide

/-- C4 amended: `decay_counter` counts mutating operations (Increment and
Remove). When an `Increment` raises the counter to at least `decay_border`, it
first applies its own increment, then halves every tracked key's frequency by
integer division and resets the counter to 0 (so the incremented key ends at
(f+1)/2). `Remove` increments the counter but never itself triggers a decay
pass. -/
theorem C4_decay_behavior :
    (∀ (s : LFUCache Nat) (k : Nat) (f : Nat),
      findAssoc k s.key_element = some f →
      (s.key_element.map Prod.fst).Nodup →
      s.decay_border ≤ s.decay_counter + 1 →
      ∃ s', s.Increment k = Except.ok s' ∧ s'.decay_counter = 0 ∧
        findAssoc k s'.key_element = some ((f + 1) / 2) ∧
        (∀ j g, j ≠ k → findAssoc j s.key_element = some g →
          findAssoc j s'.key_element = some (g / 2))) ∧
    (∀ (s : LFUCache Nat) (k : Nat) (f : Nat), findAssoc k s.key_element = some f →
      ∃ s', s.Remove k = Except.ok s' ∧ s'.decay_counter = s.decay_counter + 1) := by
  constructor
  · intro s k f hf hnd hb
    refine ⟨_, Increment_with_decay hf hb, rfl, ?_, ?_⟩
    · rw [decay_findAssoc (nodup_map_fst_setAssoc (f + 1) hnd)]
      dsimp only
      rw [findAssoc_setAssoc, if_pos rfl]
      rfl
    · intro j g hjk hg
      rw [decay_findAssoc (nodup_map_fst_setAssoc (f + 1) hnd)]
      dsimp only
      rw [findAssoc_setAssoc, if_neg hjk, hg]
      rfl
  · intro s k f hf
    exact ⟨_, Remove_eq hf, rfl⟩

/-- Witness for C4: at the state `c4s3` (counter 3, border 3, key 0 at
frequency 2), `Increment(0)` ends with counter 0 and key 0 at frequency
(2+1)/2 = 1, and `Remove(0)` advances the counter without decaying. -/
theorem C4_decay_behavior_witness :
    (∃ s', c4s3.Increment 0 = Except.ok s' ∧ s'.decay_counter = 0 ∧
      findAssoc 0 s'.key_element = some ((2 + 1) / 2) ∧
      (∀ j g, j ≠ 0 → findAssoc j c4s3.key_element = some g →
        findAssoc j s'.key_element = some (g / 2))) ∧
    (∃ s', c4s3.Remove 0 = Except.ok s' ∧ s'.decay_counter = c4s3.decay_counter + 1) :=
  ⟨C4_decay_behavior.1 c4s3 0 2 (by decide) (by decide) (by decide),
   C4_decay_behavior.2 c4s3 0 2 (by decide)⟩

/-- C5 counterexample: after Write(0, 1); Delete(0) on a fresh cache the store
is empty but key 0 is still tracked by the eviction algorithm at frequency 2 —
`Cache::Delete` erases from `m_data` only and never touches `m_cache_algo`, so
the tracked key set differs from the store key set after Delete completes. -/
theorem C5_counterexample :
    findAssoc 0 cacheAfterDelete.data = none ∧
    findAssoc 0 cacheAfterDelete.cache_algo.key_element = some 2 ∧
    ¬ cacheSync cacheAfterDelete := by
  decide

/-- C5 amended: starting from a state satisfying the cache invariant, the key
set tracked by the eviction algorithm is identical to the key set of the
backing store after Write, after Read, and after Items (Contains changes no
state by construction: it only returns a Bool); Delete of a present key breaks
the identity by leaving the key tracked (see the counterexample). -/
theorem C5_policy_store_sync :
    ∀ (c : Cache Nat Nat) (k v : Nat), CacheInv c →
      cacheSync (writeStep c (k, v)) ∧ cacheSync (c.Read k).2 ∧ cacheSync (c.Items).2 := by
  intro c k v h
  refine ⟨?_, ?_, ?_⟩
  · have h2 := writeStep_inv h k v
    unfold CacheInv at h2
    exact h2.2.2.2.1
  · have h2 := Read_inv h k
    unfold CacheInv at h2
    exact h2.2.2.2.1
  · have h2 := Items_inv h
    unfold CacheInv at h2
    exact h2.2.2.2.1

/-- Witness for C5: the sync property after Write, Read and Items on a small
concrete cache. -/
theorem C5_policy_store_sync_witness :
    cacheSync (writeStep (mkCache 100 2) (0, 1)) ∧
    cacheSync ((mkCache 100 2).Read 0).2 ∧
    cacheSync ((mkCache 100 2).Items).2 :=
  C5_policy_store_sync (mkCache 100 2) 0 1 (by decide)

/-- C6: `Replace` (SelectVictim) fails with the empty-policy error when no key
is tracked, and on every consistent, sorted, non-empty policy state it returns
a key whose tracked frequency is minimal among all tracked keys. `Replace`
takes no state and returns only the key, so by construction it removes nothing
and modifies no policy state. -/
theorem C6_select_victim :
    ∀ (s : LFUCache Nat), policyConsistent s → policySorted s →
      (s.key_element = [] → s.Replace = Except.error CacheError.emptyPolicy) ∧
      (s.key_element ≠ [] → ∃ k f, s.Replace = Except.ok k ∧
        findAssoc k s.key_element = some f ∧
        ∀ j g, findAssoc j s.key_element = some g → f ≤ g) := by
  intro s hc hs
  unfold policyConsistent at hc
  obtain ⟨hnd1, hnd2, h3, h4⟩ := hc
  constructor
  · intro hke
    have hkf : s.key_frequence = [] := by
      cases hkf : s.key_frequence with
      | nil => rfl
      | cons x rest =>
        have hx := h4 x (hkf ▸ List.mem_cons_self x rest)
        rw [hke] at hx
        simp [findAssoc] at hx
    rw [LFUCache.Replace, hkf]
  · intro hke
    cases hkf : s.key_frequence with
    | nil =>
      obtain ⟨e, he⟩ := List.exists_mem_of_ne_nil s.key_element hke
      have hmem := h3 e he
      rw [hkf] at hmem
      exact absurd hmem (List.not_mem_nil _)
    | cons x rest =>
      refine ⟨x.2, x.1, by rw [LFUCache.Replace, hkf],
        h4 x (hkf ▸ List.mem_cons_self x rest), ?_⟩
      intro j g hg
      have hmem : (g, j) ∈ s.key_frequence := h3 (j, g) (findAssoc_mem hg)
      rw [hkf] at hmem
      unfold policySorted at hs
      rw [hkf] at hs
      rcases List.mem_cons.1 hmem with heq | hmem
      · rw [← heq]
      · exact (List.pairwise_cons.1 hs).1 (g, j) hmem

/-- Witness for C6: `Replace` on the fresh empty policy fails; on the policy
tracking key 0 at frequency 2 it returns key 0, whose frequency is minimal. -/
theorem C6_select_victim_witness :
    ((mkLFU 100 : LFUCache Nat).Replace = Except.error CacheError.emptyPolicy) ∧
    (∃ k f, policyAfterInsert.Replace = Except.ok k ∧
      findAssoc k policyAfterInsert.key_element = some f ∧
      ∀ j g, findAssoc j policyAfterInsert.key_element = some g → f ≤ g) :=
  ⟨(C6_select_victim (mkLFU 100) (by decide) (by decide)).1 (by decide),
   (C6_select_victim policyAfterInsert (by decide) (by decide)).2 (by decide)⟩

/-- C7 counterexample: `Read` of a key that was never written fails inside the
eviction algorithm's `m_key_element.at` (the NotTrackedError site in
`Increment`, reached before the store is consulted), not inside the
backing-store lookup `m_data.at` as the claim states. -/
theorem C7_counterexample :
    ((mkCache 100 2).Read 0).1 = Except.error CacheError.policyKeyNotTracked ∧
    CacheError.policyKeyNotTracked ≠ CacheError.dataKeyNotFound := by
  decide

/-- C7 amended: `Remove` and `Increment` on an untracked key fail with the
policy lookup error (NotTrackedError); `Items` on an empty backing store fails
with the empty-cache error; `Read` on an untracked key fails with the policy
lookup error raised by the increment, before the store is consulted; only
`Read` on a tracked key that is absent from the store (possible after Delete)
fails in the backing-store lookup. -/
theorem C7_error_conditions :
    ∀ (s : LFUCache Nat) (c : Cache Nat Nat) (k : Nat) (a : LFUCache Nat),
      (findAssoc k s.key_element = none →
        s.Remove k = Except.error CacheError.policyKeyNotTracked ∧
        s.Increment k = Except.error CacheError.policyKeyNotTracked) ∧
      (c.data = [] → (c.Items).1 = Except.error CacheError.emptyCache) ∧
      (findAssoc k c.cache_algo.key_element = none →
        (c.Read k).1 = Except.error CacheError.policyKeyNotTracked) ∧
      (c.cache_algo.Increment k = Except.ok a → findAssoc k c.data = none →
        (c.Read k).1 = Except.error CacheError.dataKeyNotFound) := by
  intro s c k a
  refine ⟨fun hf => ⟨Remove_error hf, Increment_error hf⟩, ?_, ?_, ?_⟩
  · intro hd
    rw [Cache.Items, if_pos (by rw [hd]; rfl)]
  · intro hf
    rw [Cache.Read, Increment_error hf]
  · intro ha hd
    rw [Cache.Read, ha]
    dsimp only
    rw [hd]

/-- Witness for C7: each error condition at a concrete state — the fresh cache
for the first four, and the deleted-but-still-tracked key of
`cacheAfterDelete` for the backing-store failure. -/
theorem C7_error_conditions_witness :
    ((mkLFU 100 : LFUCache Nat).Remove 5 = Except.error CacheError.policyKeyNotTracked ∧
     (mkLFU 100 : LFUCache Nat).Increment 5 = Except.error CacheError.policyKeyNotTracked) ∧
    ((mkCache 100 2).Items).1 = Except.error CacheError.emptyCache ∧
    ((mkCache 100 2).Read 5).1 = Except.error CacheError.policyKeyNotTracked ∧
    (cacheAfterDelete.Read 0).1 = Except.error CacheError.dataKeyNotFound := by
  refine ⟨(C7_error_conditions (mkLFU 100) (mkCache 100 2) 5 (mkLFU 100)).1 (by decide),
    (C7_error_conditions (mkLFU 100) (mkCache 100 2) 5 (mkLFU 100)).2.1 (by decide),
    (C7_error_conditions (mkLFU 100) (mkCache 100 2) 5 (mkLFU 100)).2.2.1 (by decide),
    (C7_error_conditions (mkLFU 100) cacheAfterDelete 0 c7a).2.2.2 (by decide) (by decide)⟩

/-- C8: `Delete(k)` removes `k` from the backing store when present and is a
silent no-op when absent — it is a total function with no error outcome — and
in both cases it leaves the eviction algorithm's state (frequency index,
key-location map, decay counter and border) and every other store entry
unchanged. -/
theorem C8_delete_frame :
    ∀ (c : Cache Nat Nat) (k j : Nat), (c.data.map Prod.fst).Nodup →
      (c.Delete k).cache_algo = c.cache_algo ∧
      (c.Delete k).max_size = c.max_size ∧
      findAssoc k (c.Delete k).data = none ∧
      (j ≠ k → findAssoc j (c.Delete k).data = findAssoc j c.data) := by
  intro c k j hnd
  rw [Cache.Delete]
  by_cases h : (findAssoc k c.data).isSome
  · rw [if_pos h]
    exact ⟨rfl, rfl, findAssoc_eraseAssoc_self hnd, fun hj => findAssoc_eraseAssoc_ne hj _⟩
  · rw [if_neg h]
    refine ⟨rfl, rfl, ?_, fun hj => rfl⟩
    cases hf : findAssoc k c.data with
    | none => rfl
    | some v => rw [hf] at h; simp at h

/-- Witness for C8: deleting key 0 from the one-entry cache removes it, leaves
the eviction algorithm untouched and leaves other lookups unchanged. -/
theorem C8_delete_frame_witness :
    ((writeStep (mkCache 100 2) (0, 1)).Delete 0).cache_algo
        = (writeStep (mkCache 100 2) (0, 1)).cache_algo ∧
    ((writeStep (mkCache 100 2) (0, 1)).Delete 0).max_size
        = (writeStep (mkCache 100 2) (0, 1)).max_size ∧
    findAssoc 0 ((writeStep (mkCache 100 2) (0, 1)).Delete 0).data = none ∧
    ((1 : Nat) ≠ 0 → findAssoc 1 ((writeStep (mkCache 100 2) (0, 1)).Delete 0).data
        = findAssoc 1 (writeStep (mkCache 100 2) (0, 1)).data) :=
  C8_delete_frame (writeStep (mkCache 100 2) (0, 1)) 0 1 (by decide)

/-- C9: every LFU operation — Insert, Remove, Increment (including the decay it
may trigger) and the internal decay pass — preserves the mutual consistency of
`m_key_frequence` and `m_key_element`: every tracked key has exactly one
frequency-index entry carrying that key and the same frequency, and every
frequency-index entry has exactly one key-location entry. -/
theorem C9_consistency_preserved :
    ∀ (s s' : LFUCache Nat) (k : Nat), policyConsistent s →
      (s.Insert k = Except.ok s' → policyConsistent s') ∧
      (s.Remove k = Except.ok s' → policyConsistent s') ∧
      (s.Increment k = Except.ok s' → policyConsistent s') ∧
      policyConsistent s.decay := by
  intro s s' k hc
  exact ⟨Insert_consistent hc, Remove_consistent hc, Increment_consistent hc,
    decay_consistent hc⟩

/-- Witness for C9: consistency after a concrete Insert and a concrete decay
pass. -/
theorem C9_consistency_preserved_witness :
    policyConsistent policyAfterInsert ∧
    policyConsistent (mkLFU 100 : LFUCache Nat).decay :=
  ⟨(C9_consistency_preserved (mkLFU 100) policyAfterInsert 0 (by decide)).1 (by decide),
   (C9_consistency_preserved (mkLFU 100) policyAfterInsert 0 (by decide)).2.2.2⟩

/-- C10: for a key absent from the backing store but still tracked by the
eviction algorithm (the state `Delete` leaves behind), `Read` fails with the
backing store's key-not-present error, and the failure is not atomic: the
policy increment has already completed when the error propagates — the
returned state carries the incremented algorithm, and when no decay is
triggered the key's frequency is f + 1 and the decay counter has advanced by
one. -/
theorem C10_read_after_delete :
    ∀ (c : Cache Nat Nat) (k f : Nat),
      findAssoc k c.data = none →
      findAssoc k c.cache_algo.key_element = some f →
      ∃ a, c.cache_algo.Increment k = Except.ok a ∧
        c.Read k = (Except.error CacheError.dataKeyNotFound, { c with cache_algo := a }) ∧
        (c.cache_algo.decay_counter + 1 < c.cache_algo.decay_border →
          findAssoc k a.key_element = some (f + 1) ∧
          a.decay_counter = c.cache_algo.decay_counter + 1) := by
  intro c k f hdata htrk
  obtain ⟨a, ha⟩ := Increment_isOk htrk
  refine ⟨a, ha, ?_, ?_⟩
  · rw [Cache.Read, ha]
    dsimp only
    rw [hdata]
  · intro hb
    rw [Increment_no_decay htrk hb] at ha
    cases ha
    exact ⟨by rw [findAssoc_setAssoc, if_pos rfl], rfl⟩

/-- Witness for C10: reading the deleted-but-tracked key 0 of
`cacheAfterDelete` fails in the store lookup while its tracked frequency has
already moved from 2 to 3 and the decay counter has advanced. -/
theorem C10_read_after_delete_witness :
    ∃ a, cacheAfterDelete.cache_algo.Increment 0 = Except.ok a ∧
      cacheAfterDelete.Read 0
        = (Except.error CacheError.dataKeyNotFound, { cacheAfterDelete with cache_algo := a }) ∧
      (cacheAfterDelete.cache_algo.decay_counter + 1 < cacheAfterDelete.cache_algo.decay_border →
        findAssoc 0 a.key_element = some (2 + 1) ∧
        a.decay_counter = cacheAfterDelete.cache_algo.decay_counter + 1) :=
  C10_read_after_delete cacheAfterDelete 0 2 (by decide) (by decide)

end CCache
